import Mathlib

/-!
# Verified model of the MCP client manager

Shallow embedding of the MCP (Model Context Protocol) client manager of this
repository (`src/mcp/client.ts` and `src/mcp/config.ts`): the stream framer,
the per-connection pending-request table and its dispatch loop, the registry
of connections, tool-catalog aggregation, namespaced-name routing, and the
configuration loader's environment-variable substitution.

Modelling conventions:
* strings are `List Char`;
* a JS `Map` is an association list; a JS `Map` never holds two entries with
  the same key, so `mapSet` replaces and `mapDelete` removes the entry with
  the given key;
* the promise attached to a pending request is represented by its id: the
  pending table is the list of ids whose waiters are unresolved, and settling
  a waiter is recorded as a delivery `(id, Outcome)` in an output log;
* `JSON.parse` is a platform primitive, taken as an abstract
  `List Char → Option JSONRPCResponse` parameter (`none` models a parse
  exception);
* real time is not modelled: the 30-second timer of `sendRequest` is
  represented by the event of its callback firing (`timeoutFire`).
-/

namespace MCP

/-- Convert a Lean string literal to the `List Char` representation used
throughout the model. -/
def sToL (s : String) : List Char := s.data

/-! ## Transport framer

`handleServerOutput` frames the subprocess's stdout stream:
`server.buffer += data; const lines = server.buffer.split('\n');
server.buffer = lines.pop() || '';` and then processes each complete line. -/

/-- JS `s.split('\n')` on the `List Char` representation. It always returns
at least one (possibly empty) segment. -/
def splitNl : List Char → List (List Char)
  | [] => [[]]
  | c :: cs =>
    if c = '\n' then [] :: splitNl cs
    else (c :: ((splitNl cs).head?.getD [])) :: (splitNl cs).tail

/-- One framing step: append the incoming chunk to the retained buffer, split
on newlines, emit every complete line and retain the trailing partial line
(`lines.pop() || ''`). -/
def framerFeed (buf data : List Char) : List (List Char) × List Char :=
  ((splitNl (buf ++ data)).dropLast, (splitNl (buf ++ data)).getLast?.getD [])

/-- Feeding a sequence of chunks one at a time, accumulating the emitted
complete lines. -/
def feedChunks (buf : List Char) : List (List Char) → List (List Char) × List Char
  | [] => ([], buf)
  | c :: cs =>
    let p := framerFeed buf c
    let q := feedChunks p.2 cs
    (p.1 ++ q.1, q.2)

/-! ## JSON-RPC messages and per-line processing -/

/-- The `error` member of a JSON-RPC response (`{code, message, data?}`;
the optional `data` member is never read by the client). -/
structure RPCError where
  code : Int
  message : List Char
deriving DecidableEq

/-- A parsed JSON-RPC response as the client reads it: `id` may be absent
(`message.id !== undefined` is checked), `result` and `error` are optional. -/
structure JSONRPCResponse where
  id : Option Nat
  result : Option (List Char)
  error : Option RPCError
deriving DecidableEq

/-- How a waiter is settled: `pending.resolve(message.result)` or
`pending.reject(new Error(...))`. -/
inductive Outcome where
  | resolved (result : Option (List Char))
  | rejected (message : List Char)
deriving DecidableEq

/-- The settlement a response produces:
`if (message.error) reject(new Error(message.error.message))
else resolve(message.result)`. -/
def outcomeOf (m : JSONRPCResponse) : Outcome :=
  match m.error with
  | some e => Outcome.rejected e.message
  | none => Outcome.resolved m.result

/-- An MCP tool descriptor as reported by a server. The input schema is
opaque to the client (it is only passed through), so it is carried as an
uninterpreted document. -/
structure MCPTool where
  name : List Char
  description : List Char
  inputSchema : List Char
deriving DecidableEq

/-- The per-connection state of `MCPServer` (the `name`, `config` and
`process` handles carry no protocol state; the registry key is the name). -/
structure MCPServer where
  tools : List MCPTool
  requestId : Nat
  pendingRequests : List Nat
  buffer : List Char
deriving DecidableEq

/-- The module-level `servers: Map<string, MCPServer>`. -/
abbrev Registry := List (List Char × MCPServer)

/-- JS `Map.get`. -/
def mapGet {α : Type} : List (List Char × α) → List Char → Option α
  | [], _ => none
  | e :: rest, k => if e.1 = k then some e.2 else mapGet rest k

/-- JS `Map.set` (keys are unique, so the first matching entry is replaced;
a fresh key is appended in insertion order). -/
def mapSet {α : Type} : List (List Char × α) → List Char → α → List (List Char × α)
  | [], k, v => [(k, v)]
  | e :: rest, k, v => if e.1 = k then (k, v) :: rest else e :: mapSet rest k v

/-- JS `Map.delete` (keys are unique, so this removes the entry with the
given key). -/
def mapDelete {α : Type} : List (List Char × α) → List Char → List (List Char × α)
  | [], _ => []
  | e :: rest, k => if e.1 = k then mapDelete rest k else e :: mapDelete rest k

/-- A character discarded by JS `String.prototype.trim`. -/
def isJsWs (c : Char) : Bool :=
  c = ' ' || c = '\t' || c = '\n' || c = '\r'

/-- JS `line.trim()` (only its emptiness is ever consulted). -/
def trimWs (l : List Char) : List Char :=
  ((l.dropWhile isJsWs).reverse.dropWhile isJsWs).reverse

/-- Process one complete line from the stream: skip blank lines, drop lines
that fail to parse (the `catch` only logs), and for a parsed message with an
`id` present in the pending table, remove the entry and settle exactly that
waiter; an unknown or absent id is ignored. -/
def handleLine (parse : List Char → Option JSONRPCResponse)
    (s : MCPServer) (line : List Char) : MCPServer × List (Nat × Outcome) :=
  if (trimWs line).isEmpty then (s, [])
  else
    match parse line with
    | none => (s, [])
    | some m =>
      match m.id with
      | none => (s, [])
      | some i =>
        if i ∈ s.pendingRequests then
          ({ s with pendingRequests := s.pendingRequests.erase i }, [(i, outcomeOf m)])
        else (s, [])

/-- The `for (const line of lines)` loop of `handleServerOutput`. -/
def handleLines (parse : List Char → Option JSONRPCResponse)
    (s : MCPServer) : List (List Char) → MCPServer × List (Nat × Outcome)
  | [] => (s, [])
  | l :: ls =>
    let p := handleLine parse s l
    let q := handleLines parse p.1 ls
    (q.1, p.2 ++ q.2)

/-- `handleServerOutput`: frame the incoming chunk against the retained
buffer, then process every complete line. -/
def handleServerOutput (parse : List Char → Option JSONRPCResponse)
    (s : MCPServer) (data : List Char) : MCPServer × List (Nat × Outcome) :=
  let fr := framerFeed s.buffer data
  handleLines parse { s with buffer := fr.2 } fr.1

/-! ## Sending requests, timeouts, process exit -/

/-- A serialized request written to the subprocess's stdin
(`{"jsonrpc":"2.0", id, method, params}`). -/
structure WireRequest where
  id : Nat
  method : List Char
  params : List (List Char × List Char)
deriving DecidableEq

/-- The state effect of `sendRequest`: allocate the next id (`++server.requestId`),
record the pending entry, and emit the wire message. -/
def sendRequestStep (s : MCPServer) (method : List Char)
    (params : List (List Char × List Char)) : MCPServer × WireRequest :=
  let i := s.requestId + 1
  ({ s with requestId := i, pendingRequests := s.pendingRequests ++ [i] },
   { id := i, method := method, params := params })

/-- The timeout callback of `sendRequest` firing for request `i`:
`if (pendingRequests.has(id)) { delete(id); reject(new Error("Request timeout: " + method)) }`. -/
def timeoutFire (s : MCPServer) (i : Nat) (method : List Char) :
    MCPServer × List (Nat × Outcome) :=
  if i ∈ s.pendingRequests then
    ({ s with pendingRequests := s.pendingRequests.erase i },
     [(i, Outcome.rejected (sToL "Request timeout: " ++ method))])
  else (s, [])

/-- The `proc.on('exit', ...)` handler (the `'error'` handler is identical):
it logs and removes the server from the registry. Its delivery log is the
(settlements it performs on pending waiters) — the handler performs none. -/
def onExitHandler (servers : Registry) (name : List Char) :
    Registry × List (Nat × Outcome) :=
  (mapDelete servers name, [])

/-! ## Registry: catalog aggregation and routing -/

/-- An entry of the aggregate catalog: the raw tool spread together with its
`serverName` and the namespaced `name`. -/
structure NamespacedTool where
  serverName : List Char
  name : List Char
  description : List Char
  inputSchema : List Char
deriving DecidableEq

/-- `getAllMCPTools`: every connected server's tools, each renamed to
`` `${serverName}_${tool.name}` ``. -/
def getAllMCPTools : Registry → List NamespacedTool
  | [] => []
  | (serverName, server) :: rest =>
    server.tools.map (fun t =>
      { serverName := serverName
        name := serverName ++ '_' :: t.name
        description := t.description
        inputSchema := t.inputSchema }) ++ getAllMCPTools rest

/-- `executeMCPTool`: look the server up by name; if absent, throw
`"MCP server not connected: " + serverName` with no other effect; otherwise
perform `sendRequest(server, 'tools/call', {name, arguments})`. The result is
(the registry after the call, the wire messages written, the error thrown). -/
def executeMCPTool (servers : Registry) (serverName toolName args : List Char) :
    Registry × List WireRequest × Option (List Char) :=
  match mapGet servers serverName with
  | none => (servers, [], some (sToL "MCP server not connected: " ++ serverName))
  | some server =>
    let p := sendRequestStep server (sToL "tools/call")
      [(sToL "name", toolName), (sToL "arguments", args)]
    (mapSet servers serverName p.1, [p.2], none)

/-- JS `s.startsWith(pfx)` (first argument is the tested leading segment). -/
def startsWithB : List Char → List Char → Bool
  | [], _ => true
  | _ :: _, [] => false
  | p :: ps, c :: cs => p = c && startsWithB ps cs

/-- The leading-segment relation as a proposition. -/
def startsWith (p s : List Char) : Prop := ∃ r, p ++ r = s

/-- The loop of `parseToolName` over `servers.keys()`. -/
def parseToolNameGo : List (List Char) → List Char → Option (List Char × List Char)
  | [], _ => none
  | n :: rest, inp =>
    if startsWithB (n ++ ['_']) inp then some (n, inp.drop (n.length + 1))
    else parseToolNameGo rest inp

/-- `parseToolName`: test the prefixed name against each connected server's
name followed by `'_'`, first match wins; `null` when none matches. -/
def parseToolName (servers : Registry) (prefixedName : List Char) :
    Option (List Char × List Char) :=
  parseToolNameGo (servers.map Prod.fst) prefixedName

/-! ## Connecting servers -/

/-- A `MCPServerConfig` entry from the configuration. -/
structure MCPServerConfig where
  name : List Char
  command : List Char
  args : List (List Char)
  env : List (List Char × List Char)
deriving DecidableEq

/-- The outcome of the handshake a `connectServer` call drives
(`initialize` request, `notifications/initialized`, `tools/list` request):
either the discovered tool list, or the error of the step that failed or
timed out. The request/response mechanics of the two handshake requests are
those of `sendRequestStep`/`handleLine` above; this datum abstracts which
way they concluded. -/
inductive HandshakeOutcome where
  | ok (tools : List MCPTool)
  | fail (err : List Char)
deriving DecidableEq

/-- The server object as first constructed by `connectServer`
(`tools: [], requestId: 0, pendingRequests: new Map(), buffer: ''`). -/
def freshServer : MCPServer :=
  { tools := [], requestId := 0, pendingRequests := [], buffer := [] }

/-- `connectServer`: register the freshly spawned server, then either
populate its catalog from the successful `tools/list` round, or — in the
`catch` block — kill the process, remove the server from the registry and
rethrow the error. -/
def connectServer (servers : Registry) (cfg : MCPServerConfig)
    (hs : HandshakeOutcome) : Registry × Option (List Char) :=
  let s1 := mapSet servers cfg.name freshServer
  match hs with
  | HandshakeOutcome.ok ts => (mapSet s1 cfg.name { freshServer with tools := ts }, none)
  | HandshakeOutcome.fail e => (mapDelete s1 cfg.name, some e)

/-- `initializeMCP`: connect every configured server in order, catching (and
only logging) each `connectServer` failure so the remaining servers still
start. -/
def initializeMCP (servers : Registry) :
    List (MCPServerConfig × HandshakeOutcome) → Registry
  | [] => servers
  | e :: rest => initializeMCP (connectServer servers e.1 e.2).1 rest

/-! ## Configuration loading: environment-variable substitution -/

/-- The substitution applied to one `server.env` value when the config file
is present: `if (value.startsWith('$')) server.env[key] = process.env[value.substring(1)] || ''`.
`envL` is the platform's `process.env` lookup (`none` = unset). -/
def substEnv (envL : List Char → Option (List Char)) (v : List Char) : List Char :=
  if v.head? = some '$' then
    match envL v.tail with
    | some s => if s.isEmpty then [] else s
    | none => []
  else v

/-- The substitution loop of `loadMCPConfig` over the parsed config file:
every `env` value of every server is rewritten by `substEnv`. -/
def loadMCPConfigSubst (envL : List Char → Option (List Char))
    (cfgs : List MCPServerConfig) : List MCPServerConfig :=
  cfgs.map (fun s => { s with env := s.env.map (fun kv => (kv.1, substEnv envL kv.2)) })

/-! ## Framer lemmas -/

theorem splitNl_ne_nil (l : List Char) : splitNl l ≠ [] := by
  cases l with
  | nil => simp [splitNl]
  | cons c cs =>
    by_cases h : c = '\n' <;> simp [splitNl, h]

/-- How `splitNl` acts on a concatenation: the last segment of `x` merges with
the first segment of `y`. -/
theorem splitNl_append (x y : List Char) :
    splitNl (x ++ y) =
      (splitNl x).dropLast ++
        ((splitNl x).getLast?.getD [] ++ (splitNl y).head?.getD []) :: (splitNl y).tail := by
  induction x with
  | nil =>
    cases hy : splitNl y with
    | nil => exact absurd hy (splitNl_ne_nil y)
    | cons b u => simp [splitNl, hy]
  | cons c cs ih =>
    cases hcs : splitNl cs with
    | nil => exact absurd hcs (splitNl_ne_nil cs)
    | cons a t =>
      rw [hcs] at ih
      by_cases h : c = '\n'
      · subst h
        simp only [List.cons_append, splitNl, if_pos rfl, hcs]
        cases t with
        | nil => simp [ih]
        | cons b t2 => simp [ih]
      · simp only [List.cons_append, splitNl, h, if_false, ite_false, hcs]
        cases t with
        | nil =>
          cases hy : splitNl y with
          | nil => exact absurd hy (splitNl_ne_nil y)
          | cons b u => simp [ih, hy]
        | cons b t2 => simp [ih]

/-- No segment produced by the split contains a newline. -/
theorem mem_splitNl_no_nl (l : List Char) :
    ∀ seg ∈ splitNl l, '\n' ∉ seg := by
  induction l with
  | nil => intro seg hs; simp [splitNl] at hs; simp [hs]
  | cons c cs ih =>
    intro seg hs
    by_cases h : c = '\n'
    · subst h
      simp only [splitNl, if_pos trivial, List.mem_cons] at hs
      rcases hs with h1 | h2
      · simp [h1]
      · exact ih seg h2
    · simp only [splitNl, h, if_false, ite_false, List.mem_cons] at hs
      cases hcs : splitNl cs with
      | nil => exact absurd hcs (splitNl_ne_nil cs)
      | cons a t =>
        rw [hcs] at hs
        rcases hs with h1 | h2
        · subst h1
          simp only [List.head?_cons, Option.getD_some, List.mem_cons, not_or]
          refine ⟨fun hc => h hc.symm, ?_⟩
          exact ih a (hcs ▸ List.mem_cons_self a t)
        · exact ih seg (hcs ▸ List.mem_cons_of_mem a h2)

/-- The retained trailing segment never contains a newline. -/
theorem last_seg_no_nl (l : List Char) : '\n' ∉ (splitNl l).getLast?.getD [] := by
  have h := splitNl_ne_nil l
  rw [List.getLast?_eq_getLast_of_ne_nil h]
  exact mem_splitNl_no_nl l _ (List.getLast_mem h)

/-- A newline-free string splits into itself alone. -/
theorem splitNl_no_nl (l : List Char) (h : '\n' ∉ l) : splitNl l = [l] := by
  induction l with
  | nil => rfl
  | cons c cs ih =>
    have hc : ¬ c = '\n' := fun hc => h (hc ▸ List.mem_cons_self c cs)
    have hcs : '\n' ∉ cs := fun hm => h (List.mem_cons_of_mem c hm)
    simp [splitNl, hc, ih hcs]

/-- One framing step over a concatenated chunk equals two successive framing
steps: the complete lines concatenate and the retained buffers agree. -/
theorem framerFeed_append (buf d1 d2 : List Char) :
    framerFeed buf (d1 ++ d2) =
      ((framerFeed buf d1).1 ++ (framerFeed (framerFeed buf d1).2 d2).1,
       (framerFeed (framerFeed buf d1).2 d2).2) := by
  have hb : splitNl ((splitNl (buf ++ d1)).getLast?.getD [] ++ d2)
      = ((splitNl (buf ++ d1)).getLast?.getD [] ++ (splitNl d2).head?.getD []) ::
          (splitNl d2).tail := by
    rw [splitNl_append, splitNl_no_nl _ (last_seg_no_nl (buf ++ d1))]
    simp
  simp only [framerFeed]
  rw [← List.append_assoc, splitNl_append (buf ++ d1) d2, hb,
    List.dropLast_append_cons, List.getLast?_append_cons]

/-- Feeding chunks one at a time equals one framing step over their
concatenation, whenever the starting buffer holds no complete line (as the
retained buffer, being a trailing split segment, never does). -/
theorem feedChunks_eq (chunks : List (List Char)) (buf : List Char) (hbuf : '\n' ∉ buf) :
    feedChunks buf chunks = framerFeed buf chunks.flatten := by
  induction chunks generalizing buf with
  | nil => simp [feedChunks, framerFeed, splitNl_no_nl _ hbuf]
  | cons c cs ih =>
    have h2 : '\n' ∉ (framerFeed buf c).2 := last_seg_no_nl (buf ++ c)
    simp only [feedChunks, List.flatten_cons]
    rw [ih _ h2, framerFeed_append]

/-- C5: feeding the framer a byte sequence as chunks cut at arbitrary
offsets (including mid-line) yields, once all chunks are in, exactly the
complete lines — hence exactly the parsed messages — of feeding the whole
sequence in one chunk, with the same retained trailing partial line. -/
theorem framer_chunking_invariant (chunks : List (List Char)) :
    feedChunks [] chunks = framerFeed [] chunks.flatten ∧
    ∀ parse : List Char → Option JSONRPCResponse,
      (feedChunks [] chunks).1.filterMap parse =
        (framerFeed [] chunks.flatten).1.filterMap parse := by
  have h := feedChunks_eq chunks [] (by simp)
  exact ⟨h, fun parse => by rw [h]⟩

/-! ## Dispatch lemmas -/

/-- A line whose parsed message bears an id present in the pending table
removes exactly that entry and settles exactly that waiter. -/
theorem handleLine_delivers (parse : List Char → Option JSONRPCResponse)
    (s : MCPServer) (line : List Char) (m : JSONRPCResponse) (i : Nat)
    (hp : parse line = some m) (ht : (trimWs line).isEmpty = false)
    (hid : m.id = some i) (hip : i ∈ s.pendingRequests) :
    handleLine parse s line =
      ({ s with pendingRequests := s.pendingRequests.erase i }, [(i, outcomeOf m)]) := by
  simp [handleLine, ht, hp, hid, hip]

/-- A line whose parsed message bears an id absent from the pending table is
discarded: no waiter settles and the state is unchanged. -/
theorem handleLine_stale (parse : List Char → Option JSONRPCResponse)
    (s : MCPServer) (line : List Char) (m : JSONRPCResponse) (i : Nat)
    (hp : parse line = some m) (hid : m.id = some i)
    (hni : i ∉ s.pendingRequests) :
    handleLine parse s line = (s, []) := by
  by_cases ht : (trimWs line).isEmpty <;> simp [handleLine, ht, hp, hid, hni]

/-- C2: for every set of outstanding requests and every order in which the
stream delivers their responses, each response settles exactly the waiter
whose pending-table id equals the response's id: the delivery log is the
arrival sequence of (response id, its outcome) pairs, whatever the
permutation (e.g. requests 1,2,3 answered 3,2,1). -/
theorem responses_routed_by_id
    (parse : List Char → Option JSONRPCResponse) (enc : JSONRPCResponse → List Char)
    (s : MCPServer) (msgs : List JSONRPCResponse)
    (hpe : ∀ m ∈ msgs, parse (enc m) = some m)
    (hne : ∀ m ∈ msgs, (trimWs (enc m)).isEmpty = false)
    (hnd : s.pendingRequests.Nodup)
    (hids : ∀ m ∈ msgs, ∃ i ∈ s.pendingRequests, m.id = some i)
    (hmnd : (msgs.filterMap JSONRPCResponse.id).Nodup) :
    (handleLines parse s (msgs.map enc)).2 =
      msgs.filterMap (fun m => m.id.map (fun i => (i, outcomeOf m))) := by
  induction msgs generalizing s with
  | nil => rfl
  | cons m ms ih =>
    obtain ⟨i, hip, hid⟩ := hids m (List.mem_cons_self m ms)
    have hstep := handleLine_delivers parse s (enc m) m i
      (hpe m (List.mem_cons_self m ms)) (hne m (List.mem_cons_self m ms)) hid hip
    have hfm : (m :: ms).filterMap JSONRPCResponse.id = i :: ms.filterMap JSONRPCResponse.id := by
      simp [List.filterMap_cons, hid]
    rw [hfm] at hmnd
    have htail := ih { s with pendingRequests := s.pendingRequests.erase i }
      (fun m' hm' => hpe m' (List.mem_cons_of_mem m hm'))
      (fun m' hm' => hne m' (List.mem_cons_of_mem m hm'))
      (List.Nodup.erase i hnd)
      (fun m' hm' => by
        obtain ⟨j, hjp, hj⟩ := hids m' (List.mem_cons_of_mem m hm')
        refine ⟨j, ?_, hj⟩
        have hjne : j ≠ i := by
          intro hji
          subst hji
          exact (List.nodup_cons.1 hmnd).1
            (List.mem_filterMap.2 ⟨m', hm', hj⟩)
        exact (List.mem_erase_of_ne hjne).2 hjp)
      (List.nodup_cons.1 hmnd).2
    simp only [List.map_cons, handleLines, hstep, htail, List.filterMap_cons, hid,
      Option.map_some]
    rfl

/-- Processing a concatenation of line lists is processing the first list
and then the second from the resulting state, concatenating the logs. -/
theorem handleLines_append (parse : List Char → Option JSONRPCResponse)
    (s : MCPServer) (xs ys : List (List Char)) :
    handleLines parse s (xs ++ ys) =
      ((handleLines parse (handleLines parse s xs).1 ys).1,
       (handleLines parse s xs).2 ++ (handleLines parse (handleLines parse s xs).1 ys).2) := by
  induction xs generalizing s with
  | nil => simp [handleLines]
  | cons x xs ih => simp [handleLines, ih]

/-- C6: a line that fails to parse is dropped with no observable effect:
processing any line sequence with a malformed line inserted anywhere equals
processing the sequence without it, so the valid messages on both sides are
still delivered to their waiters and no error reaches any caller. -/
theorem malformed_line_transparent
    (parse : List Char → Option JSONRPCResponse) (s : MCPServer)
    (xs ys : List (List Char)) (bad : List Char) (hbad : parse bad = none) :
    handleLines parse s (xs ++ bad :: ys) = handleLines parse s (xs ++ ys) := by
  induction xs generalizing s with
  | nil =>
    have hb : handleLine parse s bad = (s, []) := by
      by_cases ht : (trimWs bad).isEmpty <;> simp [handleLine, ht, hbad]
    simp [handleLines, hb]
  | cons x xs ih => simp [handleLines, ih]

/-- C3: when the deadline of pending request `i` fires, its entry is removed
from the pending table and its caller observes the timeout rejection; a
response bearing id `i` arriving afterwards settles no waiter, raises no
error and leaves the pending table unchanged. -/
theorem timeout_then_late_response_dropped
    (parse : List Char → Option JSONRPCResponse) (s : MCPServer) (i : Nat)
    (method line : List Char) (m : JSONRPCResponse)
    (hnd : s.pendingRequests.Nodup) (hi : i ∈ s.pendingRequests)
    (hp : parse line = some m) (hid : m.id = some i) :
    (timeoutFire s i method).2
        = [(i, Outcome.rejected (sToL "Request timeout: " ++ method))] ∧
    i ∉ (timeoutFire s i method).1.pendingRequests ∧
    handleLine parse (timeoutFire s i method).1 line
        = ((timeoutFire s i method).1, []) := by
  have htf : timeoutFire s i method =
      ({ s with pendingRequests := s.pendingRequests.erase i },
       [(i, Outcome.rejected (sToL "Request timeout: " ++ method))]) := by
    simp [timeoutFire, hi]
  have hni : i ∉ s.pendingRequests.erase i := List.Nodup.not_mem_erase hnd
  refine ⟨by rw [htf], by rw [htf]; exact hni, ?_⟩
  rw [htf]
  exact handleLine_stale parse _ line m i hp hid hni

/-- Witness for C2: requests 1, 2, 3 outstanding, responses arriving in
order 3, 2, 1 (response 2 an error), each settling exactly its own
waiter. -/
theorem responses_routed_by_id_witness :
    (handleLines
      (fun l =>
        if l = 'r' :: List.replicate 3 'x' then
          some (JSONRPCResponse.mk (some 3) (some (sToL "r3")) none)
        else if l = 'r' :: List.replicate 2 'x' then
          some (JSONRPCResponse.mk (some 2) none (some (RPCError.mk (-32000) (sToL "boom"))))
        else if l = 'r' :: List.replicate 1 'x' then
          some (JSONRPCResponse.mk (some 1) (some (sToL "r1")) none)
        else none)
      (MCPServer.mk [] 3 [1, 2, 3] [])
      ([JSONRPCResponse.mk (some 3) (some (sToL "r3")) none,
        JSONRPCResponse.mk (some 2) none (some (RPCError.mk (-32000) (sToL "boom"))),
        JSONRPCResponse.mk (some 1) (some (sToL "r1")) none].map
          (fun m => 'r' :: List.replicate (m.id.getD 0) 'x'))).2 =
      [(3, Outcome.resolved (some (sToL "r3"))),
       (2, Outcome.rejected (sToL "boom")),
       (1, Outcome.resolved (some (sToL "r1")))] := by
  exact responses_routed_by_id _ _ _ _
    (by decide) (by decide) (by decide) (by decide) (by decide)

/-- Witness for C6: a malformed line `oops` between two valid response
lines changes nothing about how the stream is processed. -/
theorem malformed_line_transparent_witness :
    handleLines
      (fun l =>
        if l = sToL "a" then some (JSONRPCResponse.mk (some 1) (some (sToL "ra")) none)
        else if l = sToL "b" then some (JSONRPCResponse.mk (some 2) (some (sToL "rb")) none)
        else none)
      (MCPServer.mk [] 2 [1, 2] []) ([sToL "a"] ++ sToL "oops" :: [sToL "b"]) =
    handleLines
      (fun l =>
        if l = sToL "a" then some (JSONRPCResponse.mk (some 1) (some (sToL "ra")) none)
        else if l = sToL "b" then some (JSONRPCResponse.mk (some 2) (some (sToL "rb")) none)
        else none)
      (MCPServer.mk [] 2 [1, 2] []) ([sToL "a"] ++ [sToL "b"]) := by
  exact malformed_line_transparent _ _ _ _ _ (by decide)

/-- Witness for C3: request 1 times out, then its response arrives late and
is dropped without effect. -/
theorem timeout_then_late_response_dropped_witness :
    (timeoutFire (MCPServer.mk [] 1 [1] []) 1 (sToL "tools/call")).2
        = [(1, Outcome.rejected (sToL "Request timeout: " ++ sToL "tools/call"))] ∧
    1 ∉ (timeoutFire (MCPServer.mk [] 1 [1] []) 1 (sToL "tools/call")).1.pendingRequests ∧
    handleLine
      (fun l =>
        if l = sToL "late" then some (JSONRPCResponse.mk (some 1) (some (sToL "r")) none)
        else none)
      (timeoutFire (MCPServer.mk [] 1 [1] []) 1 (sToL "tools/call")).1 (sToL "late")
        = ((timeoutFire (MCPServer.mk [] 1 [1] []) 1 (sToL "tools/call")).1, []) := by
  exact timeout_then_late_response_dropped
    (fun l =>
      if l = sToL "late" then some (JSONRPCResponse.mk (some 1) (some (sToL "r")) none)
      else none)
    (MCPServer.mk [] 1 [1] []) 1 (sToL "tools/call") (sToL "late")
    (JSONRPCResponse.mk (some 1) (some (sToL "r")) none)
    (by decide) (by decide) (by decide) (by decide)

/-! ## Map lemmas -/

theorem mapGet_mapDelete_self {α : Type} (m : List (List Char × α)) (k : List Char) :
    mapGet (mapDelete m k) k = none := by
  induction m with
  | nil => rfl
  | cons e rest ih =>
    by_cases h : e.1 = k
    · simp [mapDelete, h, ih]
    · simp [mapDelete, mapGet, h, ih]

theorem mapGet_mapDelete_other {α : Type} (m : List (List Char × α)) (k k' : List Char)
    (h : k' ≠ k) : mapGet (mapDelete m k) k' = mapGet m k' := by
  induction m with
  | nil => rfl
  | cons e rest ih =>
    by_cases he : e.1 = k
    · have hek' : ¬ e.1 = k' := fun hc => h (hc.symm.trans he)
      simp [mapDelete, mapGet, he, hek', ih, Ne.symm h]
    · by_cases he' : e.1 = k' <;> simp [mapDelete, mapGet, he, he', ih, h, Ne.symm h]

theorem mapGet_mapSet_self {α : Type} (m : List (List Char × α)) (k : List Char) (v : α) :
    mapGet (mapSet m k v) k = some v := by
  induction m with
  | nil => simp [mapSet, mapGet]
  | cons e rest ih =>
    by_cases h : e.1 = k <;> simp [mapSet, mapGet, h, ih]

theorem mapGet_mapSet_other {α : Type} (m : List (List Char × α)) (k k' : List Char) (v : α)
    (h : k' ≠ k) : mapGet (mapSet m k v) k' = mapGet m k' := by
  induction m with
  | nil => simp [mapSet, mapGet, Ne.symm h]
  | cons e rest ih =>
    by_cases he : e.1 = k
    · have hek' : ¬ e.1 = k' := fun hc => h (hc.symm.trans he)
      simp [mapSet, mapGet, he, hek', Ne.symm h]
    · by_cases he' : e.1 = k' <;> simp [mapSet, mapGet, he, he', ih, h]

/-! ## C1: process exit versus pending requests -/

/-- C1 counterexample: a connection with request 1 still pending; the exit
handler removes the connection from the registry but settles no waiter at
all — in particular no pending request observes a connection-lost
rejection. -/
theorem exit_rejects_pending_cex :
    (1 : Nat) ∈ (MCPServer.mk [] 1 [1] []).pendingRequests ∧
    (onExitHandler [(sToL "github", MCPServer.mk [] 1 [1] [])] (sToL "github")).2 = [] ∧
    mapGet (onExitHandler [(sToL "github", MCPServer.mk [] 1 [1] [])] (sToL "github")).1
      (sToL "github") = none := by
  decide

/-- C1 (amended): when the subprocess exits, the connection is removed from
the registry, but still-pending requests receive no rejection at exit time;
each pending request is instead rejected with the timeout error
`"Request timeout: <method>"` when its own 30-second deadline fires, so it
does not hang forever but never observes a connection-lost error. -/
theorem exit_removes_conn_pending_rejected_by_timeout
    (servers : Registry) (name : List Char) (conn : MCPServer) (i : Nat)
    (method : List Char) (_hget : mapGet servers name = some conn)
    (hnd : conn.pendingRequests.Nodup) (hi : i ∈ conn.pendingRequests) :
    mapGet (onExitHandler servers name).1 name = none ∧
    (onExitHandler servers name).2 = [] ∧
    (timeoutFire conn i method).2
        = [(i, Outcome.rejected (sToL "Request timeout: " ++ method))] ∧
    i ∉ (timeoutFire conn i method).1.pendingRequests := by
  refine ⟨mapGet_mapDelete_self servers name, rfl, ?_, ?_⟩
  · simp [timeoutFire, hi]
  · simp only [timeoutFire, hi, if_pos]
    exact List.Nodup.not_mem_erase hnd

/-- Witness for the amended C1 at a one-server registry with request 1
pending. -/
theorem exit_removes_conn_pending_rejected_by_timeout_witness :
    mapGet (onExitHandler [(sToL "github", MCPServer.mk [] 1 [1] [])] (sToL "github")).1
      (sToL "github") = none ∧
    (onExitHandler [(sToL "github", MCPServer.mk [] 1 [1] [])] (sToL "github")).2 = [] ∧
    (timeoutFire (MCPServer.mk [] 1 [1] []) 1 (sToL "initialize")).2
        = [(1, Outcome.rejected (sToL "Request timeout: " ++ sToL "initialize"))] ∧
    1 ∉ (timeoutFire (MCPServer.mk [] 1 [1] []) 1 (sToL "initialize")).1.pendingRequests :=
  exit_removes_conn_pending_rejected_by_timeout
    [(sToL "github", MCPServer.mk [] 1 [1] [])] (sToL "github")
    (MCPServer.mk [] 1 [1] []) 1 (sToL "initialize") (by decide) (by decide) (by decide)

/-! ## C7: unroutable calls -/

/-- C7: a call naming a server absent from the registry throws
`"MCP server not connected: <name>"` before any I/O: the registry (hence
every pending table and id counter) is unchanged and nothing is written to
any process. -/
theorem unroutable_call_no_io (servers : Registry) (serverName toolName args : List Char)
    (h : mapGet servers serverName = none) :
    executeMCPTool servers serverName toolName args =
      (servers, [], some (sToL "MCP server not connected: " ++ serverName)) := by
  simp [executeMCPTool, h]

/-- Witness for C7: calling `notion_search` with only `github` connected. -/
theorem unroutable_call_no_io_witness :
    executeMCPTool [(sToL "github", freshServer)] (sToL "notion") (sToL "search") [] =
      ([(sToL "github", freshServer)], [],
       some (sToL "MCP server not connected: " ++ sToL "notion")) :=
  unroutable_call_no_io [(sToL "github", freshServer)] (sToL "notion") (sToL "search") []
    (by decide)

/-! ## String lemmas for namespaced names -/

theorem startsWithB_iff (p s : List Char) :
    startsWithB p s = true ↔ ∃ r, p ++ r = s := by
  induction p generalizing s with
  | nil => simp [startsWithB]
  | cons a ps ih =>
    cases s with
    | nil =>
      simp [startsWithB]
    | cons c cs =>
      simp only [startsWithB, Bool.and_eq_true, decide_eq_true_eq, ih, List.cons_append,
        List.cons.injEq]
      constructor
      · rintro ⟨hac, r, hr⟩
        exact ⟨r, hac, hr⟩
      · rintro ⟨r, hac, hr⟩
        exact ⟨hac, r, hr⟩

/-- Two leading segments of the same string are comparable. -/
theorem append_comparable (p1 : List Char) :
    ∀ (p2 r1 r2 : List Char), p1 ++ r1 = p2 ++ r2 →
      (∃ u, p1 ++ u = p2) ∨ (∃ u, p2 ++ u = p1) := by
  induction p1 with
  | nil =>
    intro p2 r1 r2 _
    exact Or.inl ⟨p2, rfl⟩
  | cons a ps ih =>
    intro p2 r1 r2 h
    cases p2 with
    | nil => exact Or.inr ⟨a :: ps, rfl⟩
    | cons b qs =>
      simp only [List.cons_append, List.cons.injEq] at h
      obtain ⟨hab, htail⟩ := h
      subst hab
      rcases ih qs r1 r2 htail with ⟨u, hu⟩ | ⟨u, hu⟩
      · exact Or.inl ⟨u, by simp [← hu]⟩
      · exact Or.inr ⟨u, by simp [← hu]⟩

/-- Every name in the aggregate catalog decomposes over some registry entry
and one of its tools. -/
theorem mem_catalog_names (reg : Registry) (x : List Char)
    (hx : x ∈ (getAllMCPTools reg).map NamespacedTool.name) :
    ∃ p ∈ reg, ∃ t ∈ p.2.tools, x = p.1 ++ '_' :: t.name := by
  induction reg with
  | nil => simp [getAllMCPTools] at hx
  | cons hd rest ih =>
    obtain ⟨n, srv⟩ := hd
    simp only [getAllMCPTools, List.map_append, List.mem_append, List.map_map] at hx
    rcases hx with hx | hx
    · simp only [List.mem_map, Function.comp] at hx
      obtain ⟨t, ht, hname⟩ := hx
      exact ⟨(n, srv), List.mem_cons_self _ _, t, ht, hname.symm⟩
    · obtain ⟨p, hp, t, ht, hname⟩ := ih hx
      exact ⟨p, List.mem_cons_of_mem _ hp, t, ht, hname⟩

/-! ## C4: aggregate catalog uniqueness -/

/-- C4 counterexample: two servers with distinct names `a` and `a_b`, each
reporting a single raw tool (`b_c` and `c`), produce two catalog entries
both named `a_b_c`: pairwise-distinct server names alone do not make the
per-server prefix a structural uniqueness guarantee. -/
theorem catalog_dup_names_cex :
    (sToL "a" ≠ sToL "a_b") ∧
    ¬ (((getAllMCPTools
        [(sToL "a", MCPServer.mk [MCPTool.mk (sToL "b_c") [] []] 0 [] []),
         (sToL "a_b", MCPServer.mk [MCPTool.mk (sToL "c") [] []] 0 [] [])]).map
          NamespacedTool.name).Nodup) := by
  decide

/-- C4 (amended): the aggregate catalog contains no two entries with the
same namespaced name, provided each server's raw tool names are pairwise
distinct and no connected server's name followed by `'_'` is a leading
segment of another's name followed by `'_'` (pairwise-distinct names alone
do not suffice). -/
theorem catalog_names_nodup (reg : Registry)
    (hsep : reg.Pairwise (fun p q =>
      startsWithB (p.1 ++ ['_']) (q.1 ++ ['_']) = false ∧
      startsWithB (q.1 ++ ['_']) (p.1 ++ ['_']) = false))
    (htools : ∀ p ∈ reg, (p.2.tools.map MCPTool.name).Nodup) :
    ((getAllMCPTools reg).map NamespacedTool.name).Nodup := by
  induction reg with
  | nil => simp [getAllMCPTools]
  | cons hd rest ih =>
    obtain ⟨n, srv⟩ := hd
    simp only [getAllMCPTools, List.map_append, List.map_map]
    rw [List.nodup_append]
    refine ⟨?_, ?_, ?_⟩
    · have hinj : Function.Injective (fun x : List Char => n ++ '_' :: x) := by
        intro x y hxy
        simpa using List.append_cancel_left hxy
      have : (List.map (NamespacedTool.name ∘ fun t =>
          { serverName := n, name := n ++ '_' :: t.name,
            description := t.description, inputSchema := t.inputSchema }) srv.tools)
          = (srv.tools.map MCPTool.name).map (fun x => n ++ '_' :: x) := by
        simp [Function.comp]
      rw [this]
      exact List.Nodup.map hinj (htools (n, srv) (List.mem_cons_self _ _))
    · exact ih (List.pairwise_cons.1 hsep).2
        (fun p hp => htools p (List.mem_cons_of_mem _ hp))
    · intro x hx hx'
      simp only [List.mem_map, Function.comp] at hx
      obtain ⟨t, ht, hname⟩ := hx
      obtain ⟨p, hp, t', ht', hname'⟩ := mem_catalog_names rest x hx'
      have hrel := (List.pairwise_cons.1 hsep).1 p hp
      have heq : (n ++ ['_']) ++ t.name = (p.1 ++ ['_']) ++ t'.name := by
        rw [List.append_assoc, List.append_assoc]
        simp only [List.singleton_append]
        rw [hname, hname']
      rcases append_comparable (n ++ ['_']) (p.1 ++ ['_']) t.name t'.name heq with
        ⟨u, hu⟩ | ⟨u, hu⟩
      · have : startsWithB (n ++ ['_']) (p.1 ++ ['_']) = true :=
          (startsWithB_iff _ _).2 ⟨u, hu⟩
        rw [hrel.1] at this
        exact Bool.false_ne_true this
      · have : startsWithB (p.1 ++ ['_']) (n ++ ['_']) = true :=
          (startsWithB_iff _ _).2 ⟨u, hu⟩
        rw [hrel.2] at this
        exact Bool.false_ne_true this

/-- Witness for the amended C4: `github` and `notion` both reporting a raw
tool `search` (plus a second github tool) give the distinct catalog names
`github_search`, `github_create_issue`, `notion_search`. -/
theorem catalog_names_nodup_witness :
    ((getAllMCPTools
      [(sToL "github", MCPServer.mk
          [MCPTool.mk (sToL "search") [] [], MCPTool.mk (sToL "create_issue") [] []] 0 [] []),
       (sToL "notion", MCPServer.mk [MCPTool.mk (sToL "search") [] []] 0 [] [])]).map
        NamespacedTool.name).Nodup :=
  catalog_names_nodup
    [(sToL "github", MCPServer.mk
        [MCPTool.mk (sToL "search") [] [], MCPTool.mk (sToL "create_issue") [] []] 0 [] []),
     (sToL "notion", MCPServer.mk [MCPTool.mk (sToL "search") [] []] 0 [] [])]
    (by decide) (by decide)

/-! ## C8: independent startup and at-most-once catalog population -/

theorem connectServer_fail_get (servers : Registry) (cfg : MCPServerConfig) (e : List Char) :
    mapGet (connectServer servers cfg (HandshakeOutcome.fail e)).1 cfg.name = none := by
  simp [connectServer, mapGet_mapDelete_self]

theorem connectServer_ok_get (servers : Registry) (cfg : MCPServerConfig)
    (ts : List MCPTool) :
    mapGet (connectServer servers cfg (HandshakeOutcome.ok ts)).1 cfg.name =
      some { freshServer with tools := ts } := by
  simp [connectServer, mapGet_mapSet_self]

theorem connectServer_other_get (servers : Registry) (cfg : MCPServerConfig)
    (hs : HandshakeOutcome) (name : List Char) (h : name ≠ cfg.name) :
    mapGet (connectServer servers cfg hs).1 name = mapGet servers name := by
  cases hs with
  | ok ts =>
    simp only [connectServer]
    rw [mapGet_mapSet_other _ _ _ _ h, mapGet_mapSet_other _ _ _ _ h]
  | fail e =>
    simp only [connectServer]
    rw [mapGet_mapDelete_other _ _ _ h, mapGet_mapSet_other _ _ _ _ h]

theorem initializeMCP_untouched (cfgs : List (MCPServerConfig × HandshakeOutcome))
    (r : Registry) (name : List Char) (h : ∀ e ∈ cfgs, e.1.name ≠ name) :
    mapGet (initializeMCP r cfgs) name = mapGet r name := by
  induction cfgs generalizing r with
  | nil => rfl
  | cons e rest ih =>
    rw [initializeMCP, ih _ (fun e' he' => h e' (List.mem_cons_of_mem e he'))]
    exact connectServer_other_get r e.1 e.2 name
      (Ne.symm (h e (List.mem_cons_self e rest)))

/-- What `initializeMCP` leaves in the registry for each configured server,
assuming the configured names are distinct. -/
theorem initializeMCP_get (cfgs : List (MCPServerConfig × HandshakeOutcome))
    (hnd : (cfgs.map (fun e => e.1.name)).Nodup) (r : Registry) :
    ∀ e ∈ cfgs, mapGet (initializeMCP r cfgs) e.1.name =
      match e.2 with
      | HandshakeOutcome.ok ts => some { freshServer with tools := ts }
      | HandshakeOutcome.fail _ => none := by
  induction cfgs generalizing r with
  | nil => intro e he; simp at he
  | cons c rest ih =>
    intro e he
    rw [List.map_cons, List.nodup_cons] at hnd
    rcases List.mem_cons.1 he with he1 | he2
    · subst he1
      rw [initializeMCP]
      rw [initializeMCP_untouched rest _ e.1.name
        (fun e' he' => fun hc => hnd.1 (hc ▸ List.mem_map_of_mem (fun x => x.1.name) he'))]
      cases h2 : e.2 with
      | ok ts => rw [← h2]; rw [h2]; exact connectServer_ok_get r e.1 ts
      | fail err => rw [← h2]; rw [h2]; exact connectServer_fail_get r e.1 err
    · exact ih hnd.2 _ e he2

/-- C8: with distinct configured names, a server whose handshake or
discovery fails is absent from the registry after startup (its catalog was
never populated), while every server whose discovery succeeds is present
with exactly the discovered catalog — so one failure does not prevent the
remaining servers from starting, and a catalog is populated only by a
successful discovery round. -/
theorem failed_connect_isolated (cfgs : List (MCPServerConfig × HandshakeOutcome))
    (hnd : (cfgs.map (fun e => e.1.name)).Nodup) :
    (∀ cfg e, (cfg, HandshakeOutcome.fail e) ∈ cfgs →
        mapGet (initializeMCP [] cfgs) cfg.name = none) ∧
    (∀ cfg ts, (cfg, HandshakeOutcome.ok ts) ∈ cfgs →
        mapGet (initializeMCP [] cfgs) cfg.name =
          some { freshServer with tools := ts }) := by
  have h := initializeMCP_get cfgs hnd []
  exact ⟨fun cfg e hm => h (cfg, HandshakeOutcome.fail e) hm,
         fun cfg ts hm => h (cfg, HandshakeOutcome.ok ts) hm⟩

/-- Witness for C8: `github` fails its handshake, `notion` succeeds with one
tool; after startup `github` is absent and `notion` holds its catalog. -/
theorem failed_connect_isolated_witness :
    mapGet (initializeMCP []
      [(MCPServerConfig.mk (sToL "github") (sToL "npx") [] [],
          HandshakeOutcome.fail (sToL "Request timeout: initialize")),
       (MCPServerConfig.mk (sToL "notion") (sToL "npx") [] [],
          HandshakeOutcome.ok [MCPTool.mk (sToL "search") [] []])])
      (sToL "github") = none ∧
    mapGet (initializeMCP []
      [(MCPServerConfig.mk (sToL "github") (sToL "npx") [] [],
          HandshakeOutcome.fail (sToL "Request timeout: initialize")),
       (MCPServerConfig.mk (sToL "notion") (sToL "npx") [] [],
          HandshakeOutcome.ok [MCPTool.mk (sToL "search") [] []])])
      (sToL "notion") =
        some { freshServer with tools := [MCPTool.mk (sToL "search") [] []] } :=
  ⟨(failed_connect_isolated _ (by decide)).1
      (MCPServerConfig.mk (sToL "github") (sToL "npx") [] [])
      (sToL "Request timeout: initialize") (by decide),
   (failed_connect_isolated _ (by decide)).2
      (MCPServerConfig.mk (sToL "notion") (sToL "npx") [] [])
      [MCPTool.mk (sToL "search") [] []] (by decide)⟩

/-! ## C9: namespaced-name parsing -/

theorem parseToolNameGo_none_iff (names : List (List Char)) (inp : List Char) :
    parseToolNameGo names inp = none ↔
      ∀ n ∈ names, startsWithB (n ++ ['_']) inp = false := by
  induction names with
  | nil => simp [parseToolNameGo]
  | cons n rest ih =>
    cases hb : startsWithB (n ++ ['_']) inp with
    | true => simp [parseToolNameGo, hb]
    | false => simp [parseToolNameGo, hb, ih]

theorem parseToolNameGo_some (names : List (List Char)) (inp s t : List Char)
    (h : parseToolNameGo names inp = some (s, t)) :
    s ∈ names ∧ s ++ '_' :: t = inp := by
  induction names with
  | nil => simp [parseToolNameGo] at h
  | cons n rest ih =>
    cases hb : startsWithB (n ++ ['_']) inp with
    | false =>
      rw [parseToolNameGo, hb] at h
      simp only [Bool.false_eq_true, if_false, ite_false] at h
      obtain ⟨hm, he⟩ := ih h
      exact ⟨List.mem_cons_of_mem n hm, he⟩
    | true =>
      rw [parseToolNameGo, hb] at h
      simp only [if_true, ite_true, Option.some.injEq, Prod.mk.injEq] at h
      obtain ⟨h1, h2⟩ := h
      subst h1
      subst h2
      obtain ⟨r, hr⟩ := (startsWithB_iff _ _).1 hb
      have hd : inp.drop (n.length + 1) = r := by
        have hlen : (n ++ ['_']).length = n.length + 1 := by simp
        rw [← hr, ← hlen, List.drop_left]
      refine ⟨List.mem_cons_self n rest, ?_⟩
      rw [hd, ← hr]
      simp

/-- C9: `parseToolName` returns `null` exactly when the input does not start
with any connected server's name followed by `'_'`; and when it returns
`(serverName, toolName)`, that server is connected and
`serverName ++ "_" ++ toolName` reassembles the input exactly. -/
theorem parseToolName_sound (servers : Registry) (inp : List Char) :
    (parseToolName servers inp = none ↔
      ∀ n ∈ servers.map Prod.fst, ¬ startsWith (n ++ ['_']) inp) ∧
    (∀ s t, parseToolName servers inp = some (s, t) →
      s ∈ servers.map Prod.fst ∧ s ++ '_' :: t = inp) := by
  constructor
  · rw [parseToolName, parseToolNameGo_none_iff]
    constructor
    · intro h n hn hsw
      have hb := (startsWithB_iff (n ++ ['_']) inp).2 hsw
      rw [h n hn] at hb
      exact Bool.false_ne_true hb
    · intro h n hn
      cases hb : startsWithB (n ++ ['_']) inp with
      | false => rfl
      | true => exact absurd ((startsWithB_iff _ _).1 hb) (h n hn)
  · exact fun s t h => parseToolNameGo_some _ _ s t h

/-- Witness for C9: `github_create_issue` parses against a registry holding
`github` and reassembles exactly. -/
theorem parseToolName_sound_witness :
    parseToolName [(sToL "github", freshServer)] (sToL "github_create_issue")
        = some (sToL "github", sToL "create_issue") ∧
    sToL "github" ∈ [(sToL "github", freshServer)].map Prod.fst ∧
    sToL "github" ++ '_' :: sToL "create_issue" = sToL "github_create_issue" := by
  refine ⟨by decide, ?_, ?_⟩
  · exact ((parseToolName_sound [(sToL "github", freshServer)]
      (sToL "github_create_issue")).2 (sToL "github") (sToL "create_issue") (by decide)).1
  · exact ((parseToolName_sound [(sToL "github", freshServer)]
      (sToL "github_create_issue")).2 (sToL "github") (sToL "create_issue") (by decide)).2

/-! ## C10: configuration environment-variable substitution -/

/-- C10: when the config file is present, a server `env` value starting with
`'$'` is replaced by the named environment variable's value — the empty
string when it is unset or empty — and every other value passes through
unchanged; the loader applies this to every `env` entry of every server. -/
theorem env_substitution (envL : List Char → Option (List Char)) :
    (∀ rest, substEnv envL ('$' :: rest) = (envL rest).getD []) ∧
    (∀ v, v.head? ≠ some '$' → substEnv envL v = v) ∧
    (∀ cfgs, (loadMCPConfigSubst envL cfgs).map MCPServerConfig.env =
      cfgs.map (fun s => s.env.map (fun kv => (kv.1, substEnv envL kv.2)))) := by
  refine ⟨?_, ?_, ?_⟩
  · intro rest
    cases h : envL rest with
    | none => simp [substEnv, h]
    | some s => cases s <;> simp [substEnv, h]
  · intro v hv
    simp [substEnv, hv]
  · intro cfgs
    simp [loadMCPConfigSubst]

/-- Witness for C10: `$GITHUB_TOKEN` resolves through the environment,
`$MISSING` becomes empty, and a plain value passes through. -/
theorem env_substitution_witness :
    substEnv (fun k => if k = sToL "GITHUB_TOKEN" then some (sToL "ghp_x") else none)
        ('$' :: sToL "GITHUB_TOKEN")
      = ((fun k => if k = sToL "GITHUB_TOKEN" then some (sToL "ghp_x") else none)
          (sToL "GITHUB_TOKEN")).getD [] ∧
    substEnv (fun k => if k = sToL "GITHUB_TOKEN" then some (sToL "ghp_x") else none)
        (sToL "npx")
      = sToL "npx" :=
  ⟨(env_substitution (fun k => if k = sToL "GITHUB_TOKEN" then some (sToL "ghp_x") else none)).1
      (sToL "GITHUB_TOKEN"),
   (env_substitution (fun k => if k = sToL "GITHUB_TOKEN" then some (sToL "ghp_x") else none)).2.1
      (sToL "npx") (by decide)⟩

end MCP
